import Mathlib

/-!
Shallow embedding of the `flattenxsd` tools
(`xsd_import2include.py` and `flatten_include.py`).

XML element nodes carry a tag, an ordered attribute list, optional text
and an ordered child list.  Every node this pipeline manipulates lives in
the XML-Schema namespace, so tags are modelled by their local part
(lxml's `{ns}local` with the fixed schema namespace).  Comment and
processing-instruction nodes are not modelled; the claims under study do
not mention them.
-/

/-- An XML element node. -/
inductive XNode where
  | elem (tag : String) (attrs : List (String × String)) (text : Option String)
      (children : List XNode)

/-- Tag (local name) of a node. -/
def XNode.tag : XNode → String
  | .elem t _ _ _ => t

/-- Ordered attribute list of a node. -/
def XNode.attrs : XNode → List (String × String)
  | .elem _ a _ _ => a

/-- Text payload of a node (`None` modelled as `none`). -/
def XNode.text : XNode → Option String
  | .elem _ _ x _ => x

/-- Ordered children of a node. -/
def XNode.children : XNode → List XNode
  | .elem _ _ _ c => c

/-- First value bound to key `k` in an ordered attribute list
(lxml attribute maps have unique keys; lookup is first-match). -/
def lookupA (as : List (String × String)) (k : String) : Option String :=
  (as.find? (fun p => p.1 == k)).map (fun p => p.2)

/-- `element.get(k)` of lxml. -/
def XNode.getAttr (x : XNode) (k : String) : Option String :=
  lookupA x.attrs k

/-- `element.attrib[k] = v` on a key that may or may not be present:
lxml replaces the value in place when the key exists.  (`setA` only
replaces; callers that can create the key append explicitly.) -/
def setA : List (String × String) → String → String → List (String × String)
  | [], _, _ => []
  | p :: ps, k, v => (if p.1 == k then (k, v) else p) :: setA ps k v

/-- Replace the value at key `k` in place, keeping positions. -/
def upsertRep : List (String × XNode) → String → XNode → List (String × XNode)
  | [], _, _ => []
  | p :: ps, k, v => (if p.1 == k then (k, v) else p) :: upsertRep ps k v

/-- Python dict assignment `d[k] = v` on an insertion-ordered dict:
replace in place when present, append when absent. -/
def upsert (l : List (String × XNode)) (k : String) (v : XNode) : List (String × XNode) :=
  if l.any (fun p => p.1 == k) then upsertRep l k v
  else l ++ [(k, v)]

/-- Python `str.strip()` whitespace test (space, tab, newline, CR, VT, FF). -/
def isPySpace (c : Char) : Bool :=
  c == ' ' || c == '\t' || c == '\n' || c == '\r' || c == '\x0b' || c == '\x0c'

/-- Python `str.strip()`. -/
def pyStrip (s : String) : String :=
  ⟨((s.toList.dropWhile isPySpace).reverse.dropWhile isPySpace).reverse⟩

/-- Does the string contain a colon (`":" in ref` of Python)? -/
def hasColon (s : String) : Bool :=
  s.toList.contains ':'

/-- `pat` is an initial segment of `l`. -/
def listIsInit : List Char → List Char → Bool
  | [], _ => true
  | _ :: _, [] => false
  | a :: as, b :: bs => a == b && listIsInit as bs

/-- Python `v.startswith(m)`. -/
def strStarts (v m : String) : Bool :=
  listIsInit m.toList v.toList

/-- Characters of `v` after its first colon (`v.split(":", 1)[1]` when a
colon is present). -/
def afterFirstColon (v : String) : String :=
  ⟨(v.toList.dropWhile (fun c => !(c == ':'))).drop 1⟩

/-- Second segment of `v.split(":")` (`v.split(":")[1]`): the characters
strictly between the first and the second colon. -/
def colonSeg1 (v : String) : String :=
  ⟨((v.toList.dropWhile (fun c => !(c == ':'))).drop 1).takeWhile (fun c => !(c == ':'))⟩

/-- Drop the final character (`s[:-1]` of Python). -/
def dropLastChar (s : String) : String :=
  ⟨s.toList.dropLast⟩

mutual
/-- All nodes of a tree in document (pre-)order: the node itself followed
by the nodes of its children. -/
def nodes : XNode → List XNode
  | .elem t a x cs => .elem t a x cs :: nodesL cs
/-- All nodes of a forest in document (pre-)order. -/
def nodesL : List XNode → List XNode
  | [] => []
  | c :: cs => nodes c ++ nodesL cs
end

/-- Proper descendants of a node in document order: what lxml's
`.//` axis traverses. -/
def properDescs (x : XNode) : List XNode :=
  nodesL x.children

/-- First proper descendant satisfying `p` in document order:
`root.find(".//…")`. -/
def findDesc (x : XNode) (p : XNode → Bool) : Option XNode :=
  (properDescs x).find? p

/-- First direct child satisfying `p`: `root.find("./…")`. -/
def findChild (x : XNode) (p : XNode → Bool) : Option XNode :=
  x.children.find? p

/-- Proper descendants carrying attribute `a`:
`node.findall(".//*[@a]")` (presence, any value). -/
def descsWithAttr (x : XNode) (a : String) : List XNode :=
  (properDescs x).filter (fun e => (e.getAttr a).isSome)

/-- The five kinds of global schema symbols (`ref_type` strings of the
Python source). -/
inductive SymbolKind where
  | element
  | attribute
  | simpleType
  | complexType
  | group
deriving DecidableEq, Repr

/-- Tag string naming a kind (the local tag of its definition nodes). -/
def SymbolKind.tagName : SymbolKind → String
  | .element => "element"
  | .attribute => "attribute"
  | .simpleType => "simpleType"
  | .complexType => "complexType"
  | .group => "group"

/-- State threaded through `resolve_dependencies`: the `processed` set,
the five definition buckets of the `definitions` dict (insertion-ordered
association lists), and the emitted "definition not found" diagnostics
(the Python code prints them; we record them). -/
structure RState where
  processed : List (String × SymbolKind)
  elements : List (String × XNode)
  simpleTypes : List (String × XNode)
  complexTypes : List (String × XNode)
  attributes : List (String × XNode)
  groups : List (String × XNode)
  warnings : List (String × SymbolKind)

/-- The empty initial state (lines 20-27 of `xsd_import2include.py`). -/
def initState : RState :=
  ⟨[], [], [], [], [], [], []⟩

/-- `definitions[ref_type + "s"]`. -/
def bucket (s : RState) : SymbolKind → List (String × XNode)
  | .element => s.elements
  | .attribute => s.attributes
  | .simpleType => s.simpleTypes
  | .complexType => s.complexTypes
  | .group => s.groups

/-- Replace one bucket of the state. -/
def setBucket (s : RState) : SymbolKind → List (String × XNode) → RState
  | .element, l => { s with elements := l }
  | .attribute, l => { s with attributes := l }
  | .simpleType, l => { s with simpleTypes := l }
  | .complexType, l => { s with complexTypes := l }
  | .group, l => { s with groups := l }

/-- The XPath match predicate `xs:<kind>[@name='<n>']`. -/
def defPred (n : String) (k : SymbolKind) (e : XNode) : Bool :=
  e.tag == k.tagName && e.getAttr "name" == some n

/-- Locate the definition of `(n, k)` in the target document
(lines 42-57): `element` first tries a direct child of the root and
falls back to a document-wide search; every other kind searches the
whole document. -/
def findDef (doc : XNode) (n : String) (k : SymbolKind) : Option XNode :=
  match k with
  | .element =>
    match findChild doc (defPred n k) with
    | some d => some d
    | none => findDesc doc (defPred n k)
  | _ => findDesc doc (defPred n k)

/-- Dependency pairs scanned from a resolved definition (lines 70-89):
for each of `type`, `base`, `ref`, `group`, visit the definition itself
and then each proper descendant carrying the attribute, in document
order; keep values that are non-empty and carry no namespace prefix.
`type`/`base` try both simpleType and complexType; `ref` resolves as
element or attribute depending on the referencing node's tag; `group`
resolves as group. -/
def kindTargets (a : String) (e : XNode) (v : String) : List (String × SymbolKind) :=
  if a == "type" || a == "base" then [(v, .simpleType), (v, .complexType)]
  else if a == "ref" then
    if e.tag == "element" then [(v, .element)]
    else if e.tag == "attribute" then [(v, .attribute)]
    else []
  else if a == "group" then [(v, .group)]
  else []

/-- All dependency pairs of one definition node, in the order the Python
loop issues the recursive calls. -/
def depPairs (d : XNode) : List (String × SymbolKind) :=
  (["type", "base", "ref", "group"].map (fun a =>
    ((d :: descsWithAttr d a).map (fun e =>
      match e.getAttr a with
      | some v => if !(v == "") && !(hasColon v) then kindTargets a e v else []
      | none => [])).flatten)).flatten

/-- Inline type detection (lines 91-94): the first descendant
`complexType`, else the first descendant `simpleType`. -/
def findInline (d : XNode) : Option XNode :=
  match findDesc d (fun e => e.tag == "complexType") with
  | some t => some t
  | none => findDesc d (fun e => e.tag == "simpleType")

/-- Run a fallible step over a list, threading the state
(a Python `for` loop whose body may abort). -/
def runAll {α σ : Type} (f : α → σ → Option σ) : List α → σ → Option σ
  | [], s => some s
  | a :: l, s =>
    match f a s with
    | none => none
    | some s' => runAll f l s'

/-- `resolve_reference` (lines 29-108), with a fuel parameter standing
for the Python call stack: `none` means the fuel ran out, never an error
of the modelled code.  The reference is stripped, the processed set is
consulted and extended *before* any recursion, the definition is looked
up, recorded under its kind, its dependency pairs are resolved in order,
and a trailing named inline type is recorded under the *raw* reference
name.  A missing definition adds a diagnostic and returns normally. -/
def resolveRef (doc : XNode) : Nat → String → SymbolKind → RState → Option RState
  | 0, _, _, _ => none
  | fuel + 1, ref, k, s =>
    let n := pyStrip ref
    if (n, k) ∈ s.processed then some s
    else
      let s1 : RState := { s with processed := (n, k) :: s.processed }
      match findDef doc n k with
      | none => some { s1 with warnings := s1.warnings ++ [(n, k)] }
      | some d =>
        let s2 := setBucket s1 k (upsert (bucket s1 k) n d)
        match runAll (fun q st => resolveRef doc fuel q.1 q.2 st) (depPairs d) s2 with
        | none => none
        | some s3 =>
          match findInline d with
          | none => some s3
          | some t =>
            match t.getAttr "name" with
            | none => some s3
            | some _ =>
              let ik := if t.tag == "complexType" then SymbolKind.complexType
                        else SymbolKind.simpleType
              some (setBucket s3 ik (upsert (bucket s3 ik) ref t))

/-- `resolve_dependencies` (lines 15-116): resolve every initial
reference in turn against the empty state. -/
def resolveDependencies (doc : XNode) (refs : List (String × SymbolKind))
    (fuel : Nat) : Option RState :=
  runAll (fun q st => resolveRef doc fuel q.1 q.2 st) refs initState

/-- All five kinds, as a finite set. -/
def allKinds : Finset SymbolKind :=
  {.element, .attribute, .simpleType, .complexType, .group}

/-- Stripped values of every attribute of every node of the document. -/
def attrValsStripped (doc : XNode) : Finset String :=
  (((nodes doc).map (fun e => e.attrs.map (fun p => pyStrip p.2))).flatten).toFinset

/-- Finite universe bounding every `(name, kind)` pair the resolver can
ever mark processed: the stripped initial references together with every
stripped attribute value of the document paired with every kind. -/
def refUniverse (doc : XNode) (refs : List (String × SymbolKind)) :
    Finset (String × SymbolKind) :=
  (refs.map (fun q => (pyStrip q.1, q.2))).toFinset ∪
    (attrValsStripped doc) ×ˢ allKinds

/-- Enough fuel for `resolveDependencies` to run to completion on the
given document and initial references. -/
def adequateFuel (doc : XNode) (refs : List (String × SymbolKind)) : Nat :=
  (refUniverse doc refs).card + 1

/-- Attribute keys the top-level copy drops (line 139): usage-site
properties meaningless on a definition. -/
def usageAttrs : List String :=
  ["minOccurs", "maxOccurs", "nillable", "use"]

/-- Rewrite one local reference attribute of a copied node
(lines 168-176 and 201-209): when the key is present, its value carries
no namespace prefix and is not excluded, the value becomes
`pre ++ value`. -/
def renameDepAttr (pre : String) (excl : List String)
    (as : List (String × String)) (a : String) : List (String × String) :=
  match lookupA as a with
  | some v => if !(hasColon v) && !(excl.contains v) then setA as a (pre ++ v) else as
  | none => as

mutual
/-- `recursive_rename` (lines 179-224): copy a child node, keeping all
attributes, copying truthy text, prefixing local `type`/`ref`/`base`
values not in the exclusion set, prefixing a `name` attribute whenever
the original name is not in the exclusion set, and recursing over the
children. -/
def recursiveRename (pre : String) (excl : List String) : XNode → XNode
  | .elem t as tx cs =>
    let tx1 := match tx with
      | some str => if str == "" then none else some str
      | none => none
    let as1 := ["type", "ref", "base"].foldl (renameDepAttr pre excl) as
    let as2 := match lookupA as1 "name" with
      | some n => if !(excl.contains n) then setA as1 "name" (pre ++ n) else as1
      | none => as1
    .elem t as2 tx1 (recursiveRenameL pre excl cs)
/-- `recursive_rename` mapped over a child list, in order. -/
def recursiveRenameL (pre : String) (excl : List String) : List XNode → List XNode
  | [] => []
  | c :: cs => recursiveRename pre excl c :: recursiveRenameL pre excl cs
end

/-- Copy of one resolved definition (lines 128-230).  `isGlob` is the
outcome of the `is_global` test of line 153
(`getpath(definition).startswith("/xs:schema/")`): drop the usage-only
attributes, prefix the `name` when `isGlob` holds and the original name
is not excluded, prefix local `type`/`ref`/`base` values not excluded,
drop the text (the top-level copy never receives text), and rename the
children recursively. -/
def renameCopyDef (pre : String) (excl : List String) (isGlob : Bool)
    (d : XNode) : XNode :=
  let as0 := d.attrs.filter (fun p => !(usageAttrs.contains p.1))
  let as1 := match lookupA as0 "name" with
    | some n => if isGlob && !(excl.contains n) then setA as0 "name" (pre ++ n) else as0
    | none => as0
  let as2 := ["type", "ref", "base"].foldl (renameDepAttr pre excl) as1
  .elem d.tag as2 none (recursiveRenameL pre excl d.children)

/-- Schema assembly (lines 293-302 of `create_sub_include`): a fresh
`schema` root whose namespace map keeps only the `xs` entry of the
target root's map, whose lone attribute is `elementFormDefault` copied
from the target root (default `"qualified"`), and whose children are the
renamed definitions in order.  The conditional `targetNamespace`
deletion of lines 298-299 is a no-op on this fresh root. -/
def assembleClosure (subNsmap : List (String × String))
    (subAttrs : List (String × String)) (renamedDefs : List XNode) :
    List (String × String) × XNode :=
  let nm := subNsmap.filter (fun p => p.1 == "xs")
  let efd := (lookupA subAttrs "elementFormDefault").getD "qualified"
  (nm, .elem "schema" [("elementFormDefault", efd)] none renamedDefs)

/-- Rewrite of the reference attributes of one consumer-document node
(`update_main_xsd`, lines 333-362).  The marker is
`prefix[:-1] + ":"`.  A `ref` value with the marker becomes the bare
local name when excluded, else the prefixed local name; `type` and
`base` values with the marker always become the prefixed local name
(the code consults the exclusion set only in the `ref` loop). -/
def updateAttrsMain (pre : String) (excl : List String)
    (as : List (String × String)) : List (String × String) :=
  let mk := dropLastChar pre ++ ":"
  let as1 := match lookupA as "ref" with
    | some v =>
      if !(v == "") && strStarts v mk then
        let ln := afterFirstColon v
        setA as "ref" (if excl.contains ln then ln else pre ++ ln)
      else as
    | none => as
  let as2 := match lookupA as1 "type" with
    | some v =>
      if !(v == "") && strStarts v mk then
        setA as1 "type" (pre ++ afterFirstColon v)
      else as1
    | none => as1
  match lookupA as2 "base" with
  | some v =>
    if !(v == "") && strStarts v mk then
      setA as2 "base" (pre ++ afterFirstColon v)
    else as2
  | none => as2

mutual
/-- `update_main_xsd` reference rewriting applied to a node and all of
its descendants (the three `.//*[@…]` loops visit every proper
descendant of the root; the rewrites touch disjoint keys, so the three
document passes equal one combined pass). -/
def updateNodeMain (pre : String) (excl : List String) : XNode → XNode
  | .elem t as tx cs =>
    .elem t (updateAttrsMain pre excl as) tx (updateNodeMainL pre excl cs)
/-- Reference rewriting over a child list. -/
def updateNodeMainL (pre : String) (excl : List String) : List XNode → List XNode
  | [] => []
  | c :: cs => updateNodeMain pre excl c :: updateNodeMainL pre excl cs
end

/-- Reference rewriting over the consumer document: the loops use the
`.//` axis, so the root's own attributes are untouched and every proper
descendant is rewritten. -/
def updateMainDoc (pre : String) (excl : List String) : XNode → XNode
  | .elem t as tx cs => .elem t as tx (updateNodeMainL pre excl cs)

/-- Initial reference extraction (`create_sub_include`, lines 249-265):
every proper descendant with a `type` attribute whose value starts with
`prefix[:-1] + ":"` contributes `(local, simpleType)` and
`(local, complexType)`; every proper descendant with such a `ref` value
contributes `(local, element)` regardless of its tag; every
`attribute`-tagged proper descendant with such a `ref` value
additionally contributes `(local, attribute)`.  The local name is the
second `":"`-split segment.  (The Python result is a set; this list is
read up to membership.) -/
def extractRefs (pre : String) (root : XNode) : List (String × SymbolKind) :=
  let mk := dropLastChar pre ++ ":"
  let ds := properDescs root
  ((ds.map (fun e =>
    match e.getAttr "type" with
    | some v =>
      if !(v == "") && strStarts v mk then
        [(colonSeg1 v, SymbolKind.simpleType), (colonSeg1 v, SymbolKind.complexType)]
      else []
    | none => [])).flatten)
  ++ ((ds.map (fun e =>
    match e.getAttr "ref" with
    | some v =>
      if !(v == "") && strStarts v mk then [(colonSeg1 v, SymbolKind.element)] else []
    | none => [])).flatten)
  ++ ((ds.map (fun e =>
    if e.tag == "attribute" then
      match e.getAttr "ref" with
      | some v =>
        if !(v == "") && strStarts v mk then [(colonSeg1 v, SymbolKind.attribute)] else []
      | none => []
    else [])).flatten)

/-- A file system for the flattener: parsed documents by path. -/
def FileSys : Type :=
  List (String × XNode)

/-- Path lookup; `none` models `os.path.isfile` failing. -/
def lookupFS (fs : FileSys) (p : String) : Option XNode :=
  (fs.find? (fun q => q.1 == p)).map (fun q => q.2)

/-- `os.path.join(b, r)` for the cases the tool exercises. -/
def joinPath (b r : String) : String :=
  if strStarts r "/" then r
  else if b == "" then r
  else if strStarts (⟨b.toList.reverse⟩ : String) "/" then b ++ r
  else b ++ "/" ++ r

/-- `os.path.dirname`: everything before the last slash, `""` when the
path has no slash. -/
def dirname (p : String) : String :=
  if p.toList.contains '/' then
    ⟨((p.toList.reverse.dropWhile (fun c => !(c == '/'))).drop 1).reverse⟩
  else ""

/-- Errors of the flattener: a missing included file
(`FileNotFoundError`, fatal) or exhausted fuel (model artifact for the
unbounded Python recursion). -/
inductive FlatErr where
  | notFound (p : String)
  | outOfFuel
deriving DecidableEq, Repr

/-- Run a failing step over a list, threading the state
(a Python `for` loop whose body may raise). -/
def runAllE {α σ : Type} (f : α → σ → Except FlatErr σ) :
    List α → σ → Except FlatErr σ
  | [], s => .ok s
  | a :: l, s =>
    match f a s with
    | .error e => .error e
    | .ok s' => runAllE f l s'

/-- An include node the flattener actually processes and removes: tagged
`include` with a truthy `schemaLocation`. -/
def isInclLoc (c : XNode) : Bool :=
  c.tag == "include" &&
    (match c.getAttr "schemaLocation" with
     | some v => !(v == "")
     | none => false)

/-- `resolve_includes` (`flatten_include.py`, lines 18-37): iterate over
the include-tagged direct children; for each one with a truthy
`schemaLocation`, join the location to the current base directory, fail
fatally when the file is missing, recursively resolve the included
document against its own directory, append its top-level children at
the end of the current element's child list and drop the include marker.
Includes without a truthy `schemaLocation` are skipped and stay in
place. -/
def resolveIncludes (fs : FileSys) : Nat → String → XNode → Except FlatErr XNode
  | 0, _, _ => .error .outOfFuel
  | fuel + 1, bp, .elem t a tx cs =>
    let step := fun (inc : XNode) (parts : List XNode) =>
      match inc.getAttr "schemaLocation" with
      | none => Except.ok parts
      | some v =>
        if v == "" then Except.ok parts
        else
          let p := joinPath bp v
          match lookupFS fs p with
          | none => Except.error (.notFound p)
          | some d =>
            match resolveIncludes fs fuel (dirname p) d with
            | .error e => Except.error e
            | .ok r => Except.ok (parts ++ r.children)
    match runAllE step (cs.filter (fun c => c.tag == "include")) [] with
    | .error e => .error e
    | .ok parts => .ok (.elem t a tx (cs.filter (fun c => !(isInclLoc c)) ++ parts))

/-- Is the tree free of include-tagged nodes? -/
def includeFree (x : XNode) : Bool :=
  (nodes x).all (fun e => !(e.tag == "include"))

/-- Split a string into lines (iterating a Python text file). -/
def splitLinesAux : List Char → List Char → List String
  | acc, [] => [⟨acc.reverse⟩]
  | acc, c :: cs =>
    if c == '\n' then (⟨acc.reverse⟩ : String) :: splitLinesAux [] cs
    else splitLinesAux (c :: acc) cs

/-- Lines of a text file's contents. -/
def splitLines (s : String) : List String :=
  splitLinesAux [] s.toList

/-- `read_exclude_file` (lines 6-12): when the argument is truthy and a
regular file exists at the path, the stripped non-blank lines; in every
other case (empty/`None` argument or missing file) the empty set, with
no error raised.  The exclusion file system maps paths to contents. -/
def readExcludeFile (files : List (String × String)) (p : String) : List String :=
  if !(p == "") then
    match (files.find? (fun q => q.1 == p)).map (fun q => q.2) with
    | some contents => ((splitLines contents).map pyStrip).filter (fun l => !(l == ""))
    | none => []
  else []

/-- Symbols transitively reachable from the initial reference set by
following the local `type`/`base`/`ref`/`group` attribute values on a
resolved definition node or any of its descendants (names as the
resolver normalises them, i.e. stripped). -/
inductive Reaches (doc : XNode) (refs : List (String × SymbolKind)) :
    String × SymbolKind → Prop
  | init (r : String) (k : SymbolKind) :
      (r, k) ∈ refs → Reaches doc refs (pyStrip r, k)
  | step (n : String) (k : SymbolKind) (d : XNode) (r : String) (k' : SymbolKind) :
      Reaches doc refs (n, k) → findDef doc n k = some d →
      (r, k') ∈ depPairs d → Reaches doc refs (pyStrip r, k')

/-- Target document with a reference cycle: complexType `A` contains an
element typed `B` and complexType `B` contains an element typed `A`. -/
def cycleDoc : XNode :=
  .elem "schema" [] none
    [ .elem "complexType" [("name", "A")] none
        [.elem "sequence" [] none [.elem "element" [("name", "toB"), ("type", "B")] none []]],
      .elem "complexType" [("name", "B")] none
        [.elem "sequence" [] none [.elem "element" [("name", "toA"), ("type", "A")] none []]] ]

/-- A global element whose body nests a *named* local simpleType
`Widget` (the scope-sensitive renaming scenario of the spec). -/
def widgetDef : XNode :=
  .elem "element" [("name", "E")] none
    [.elem "simpleType" [("name", "Widget")] none
      [.elem "restriction" [("base", "Sub")] none []]]

/-- Consumer document whose only target-namespace references are one
`type`, one `ref` and one `base` attribute on the excluded symbol
`Foo`. -/
def fooConsumerDoc : XNode :=
  .elem "schema" [] none
    [ .elem "element" [("name", "a"), ("type", "s:Foo")] none [],
      .elem "element" [("ref", "s:Foo")] none [],
      .elem "extension" [("base", "s:Foo")] none [] ]

/-- Consumer document whose only target-namespace occurrence is a
`base` attribute. -/
def baseOnlyDoc : XNode :=
  .elem "schema" [] none
    [.elem "extension" [("base", "s:Foo")] none []]

/-- Consumer document carrying a target-namespace `ref` on an
`attribute`-tagged node. -/
def attrRefDoc : XNode :=
  .elem "schema" [] none
    [.elem "attribute" [("ref", "s:Att")] none []]

/-- Root schema holding one include followed by one element, to observe
where included content lands. -/
def rootWithInclude : XNode :=
  .elem "schema" [] none
    [ .elem "include" [("schemaLocation", "B.xsd")] none [],
      .elem "element" [("name", "X")] none [] ]

/-- The included file `B.xsd`. -/
def includedB : XNode :=
  .elem "schema" [] none [.elem "element" [("name", "Y")] none []]

/-- File system for the placement example. -/
def fsPlacement : FileSys :=
  [("B.xsd", includedB)]

/-- A schema whose lone include carries no `schemaLocation`. -/
def rootBareInclude : XNode :=
  .elem "schema" [] none [.elem "include" [] none []]

/-- Root for the nested-directory example: includes `sub/B.xsd`. -/
def rootNested : XNode :=
  .elem "schema" [] none [.elem "include" [("schemaLocation", "sub/B.xsd")] none []]

/-- `sub/B.xsd`: includes `C.xsd`, which must resolve relative to
`sub/`, then one element of its own. -/
def nestedB : XNode :=
  .elem "schema" [] none
    [ .elem "include" [("schemaLocation", "C.xsd")] none [],
      .elem "element" [("name", "BE")] none [] ]

/-- `sub/C.xsd`. -/
def nestedC : XNode :=
  .elem "schema" [] none [.elem "element" [("name", "CE")] none []]

/-- File system for the nested-directory example. -/
def fsNested : FileSys :=
  [("sub/B.xsd", nestedB), ("sub/C.xsd", nestedC)]

/-- An include-free document. -/
def plainDoc : XNode :=
  .elem "schema" [("elementFormDefault", "qualified")] none
    [.elem "element" [("name", "Only")] none [.elem "complexType" [] none []]]

/-- Names recorded in one bucket of the state. -/
def keysOf (s : RState) (k : SymbolKind) : List String :=
  (bucket s k).map Prod.fst

/-- Growth order on resolver states: the processed set, the diagnostics
and every bucket's key set only grow. -/
def StateLE (s t : RState) : Prop :=
  s.processed ⊆ t.processed ∧ s.warnings ⊆ t.warnings ∧
    ∀ k, keysOf s k ⊆ keysOf t k

/-- A processed pair has been fully handled in a state: its definition,
when one exists in the document, is recorded under its kind and every
dependency pair scanned from it is processed; when none exists, the
diagnostic has been emitted. -/
def Handled (doc : XNode) (s : RState) (p : String × SymbolKind) : Prop :=
  match findDef doc p.1 p.2 with
  | some d => p.1 ∈ keysOf s p.2 ∧ ∀ q ∈ depPairs d, (pyStrip q.1, q.2) ∈ s.processed
  | none => p ∈ s.warnings

/-! ### Association-list lemmas -/

theorem lookupA_cons (x : String × String) (l : List (String × String)) (k : String) :
    lookupA (x :: l) k = if x.1 == k then some x.2 else lookupA l k := by
  cases hb : (x.1 == k) with
  | true => simp [lookupA, List.find?_cons, hb]
  | false => simp [lookupA, List.find?_cons, hb]

theorem lookupA_setA_self (as : List (String × String)) (k v : String) :
    lookupA (setA as k v) k = (lookupA as k).map (fun _ => v) := by
  induction as with
  | nil => rfl
  | cons hd tl ih =>
    cases hb : (hd.1 == k) with
    | true => simp [setA, lookupA_cons, hb]
    | false => simpa [setA, lookupA_cons, hb] using ih

theorem lookupA_setA_ne (as : List (String × String)) (k v b : String)
    (h : b ≠ k) : lookupA (setA as k v) b = lookupA as b := by
  induction as with
  | nil => rfl
  | cons hd tl ih =>
    cases hk : (hd.1 == k) with
    | true =>
      have h1 : hd.1 = k := by simpa using hk
      have hkb : (k == b) = false := by simpa using Ne.symm h
      simpa [setA, lookupA_cons, hk, hkb, h1] using ih
    | false =>
      cases hbb : (hd.1 == b) with
      | true => simp [setA, lookupA_cons, hk, hbb]
      | false => simpa [setA, lookupA_cons, hk, hbb] using ih

theorem lookupA_renameDep_ne (pre : String) (excl : List String)
    (as : List (String × String)) (a b : String) (h : b ≠ a) :
    lookupA (renameDepAttr pre excl as a) b = lookupA as b := by
  unfold renameDepAttr
  cases hv : lookupA as a with
  | none => rfl
  | some v =>
    simp only []
    split
    · exact lookupA_setA_ne _ _ _ _ h
    · rfl

theorem lookupA_renameFold_name (pre : String) (excl : List String)
    (as : List (String × String)) :
    lookupA (["type", "ref", "base"].foldl (renameDepAttr pre excl) as) "name" =
      lookupA as "name" := by
  simp only [List.foldl_cons, List.foldl_nil]
  rw [lookupA_renameDep_ne _ _ _ _ _ (by decide),
    lookupA_renameDep_ne _ _ _ _ _ (by decide),
    lookupA_renameDep_ne _ _ _ _ _ (by decide)]

theorem lookupA_filter_keep (L : List String) (as : List (String × String))
    (k : String) (h : k ∉ L) :
    lookupA (as.filter (fun p => !(L.contains p.1))) k = lookupA as k := by
  induction as with
  | nil => rfl
  | cons hd tl ih =>
    by_cases hL : hd.1 ∈ L
    · have hne : (hd.1 == k) = false := by
        simp only [beq_eq_false_iff_ne]
        intro e
        exact h (e ▸ hL)
      simp only [List.filter_cons]
      rw [if_neg (by simpa using hL)]
      rw [lookupA_cons, hne]
      simpa using ih
    · simp only [List.filter_cons]
      rw [if_pos (by simpa using hL)]
      rw [lookupA_cons, lookupA_cons]
      cases he : (hd.1 == k) with
      | true => rfl
      | false => simpa using ih

theorem lookupA_filter_keep_mem (L : List String) (as : List (String × String))
    (k : String) (h : k ∉ L) :
    lookupA (as.filter (fun p => !(decide (p.1 ∈ L)))) k = lookupA as k := by
  have h0 := lookupA_filter_keep L as k h
  have he : (fun p : String × String => !(L.contains p.1)) =
      (fun p : String × String => !(decide (p.1 ∈ L))) := by
    funext p
    simp
  rw [he] at h0
  exact h0

theorem recursiveRenameL_eq_map (pre : String) (excl : List String) :
    ∀ cs : List XNode, recursiveRenameL pre excl cs = cs.map (recursiveRename pre excl)
  | [] => by simp [recursiveRenameL]
  | c :: cs => by
    simp [recursiveRenameL, recursiveRenameL_eq_map pre excl cs]

theorem getAttr_recursiveRename_name (pre : String) (excl : List String)
    (t : String) (as : List (String × String)) (tx : Option String) (cs : List XNode) :
    (recursiveRename pre excl (.elem t as tx cs)).getAttr "name" =
      (lookupA as "name").map (fun n => if excl.contains n then n else pre ++ n) := by
  show lookupA _ "name" = _
  simp only [recursiveRename, XNode.attrs, List.foldl_cons, List.foldl_nil]
  rw [lookupA_renameDep_ne _ _ _ _ _ (by decide),
    lookupA_renameDep_ne _ _ _ _ _ (by decide),
    lookupA_renameDep_ne _ _ _ _ _ (by decide)]
  cases hv : lookupA as "name" with
  | none =>
    simp only []
    rw [lookupA_renameDep_ne _ _ _ _ _ (by decide),
      lookupA_renameDep_ne _ _ _ _ _ (by decide),
      lookupA_renameDep_ne _ _ _ _ _ (by decide)]
    rw [hv]
    rfl
  | some n =>
    simp only []
    cases hx : excl.contains n with
    | true =>
      rw [if_neg (by simp [hx])]
      rw [lookupA_renameDep_ne _ _ _ _ _ (by decide),
        lookupA_renameDep_ne _ _ _ _ _ (by decide),
        lookupA_renameDep_ne _ _ _ _ _ (by decide)]
      rw [hv]
      have hx2 : n ∈ excl := by simpa using hx
      simp [hx2]
    | false =>
      rw [if_pos (by simp [hx])]
      rw [lookupA_setA_self]
      rw [lookupA_renameDep_ne _ _ _ _ _ (by decide),
        lookupA_renameDep_ne _ _ _ _ _ (by decide),
        lookupA_renameDep_ne _ _ _ _ _ (by decide)]
      rw [hv]
      have hx2 : n ∉ excl := by simpa using hx
      simp [hx2]

theorem getAttr_renameCopyDef_name (pre : String) (excl : List String)
    (isGlob : Bool) (d : XNode) :
    (renameCopyDef pre excl isGlob d).getAttr "name" =
      (d.getAttr "name").map
        (fun n => if isGlob && !(excl.contains n) then pre ++ n else n) := by
  cases d with
  | elem dt das dtx dcs =>
    show lookupA _ "name" = _
    simp only [renameCopyDef, XNode.getAttr, XNode.attrs, List.foldl_cons, List.foldl_nil]
    rw [lookupA_renameDep_ne _ _ _ _ _ (by decide),
      lookupA_renameDep_ne _ _ _ _ _ (by decide),
      lookupA_renameDep_ne _ _ _ _ _ (by decide)]
    rw [lookupA_filter_keep usageAttrs das "name" (by decide)]
    cases hv : lookupA das "name" with
    | none =>
      simp only []
      rw [lookupA_filter_keep usageAttrs das "name" (by decide)]
      rw [hv]
      rfl
    | some n =>
      simp only []
      cases hg : (isGlob && !(excl.contains n)) with
      | true =>
        have h1 : isGlob = true := (Bool.and_eq_true _ _ |>.mp hg).1
        have h2 : n ∉ excl := by simpa using (Bool.and_eq_true _ _ |>.mp hg).2
        simp [lookupA_setA_self, lookupA_filter_keep_mem usageAttrs das "name" (by decide),
          hv, h1, h2]
      | false =>
        have h2 : ¬(isGlob = true ∧ n ∉ excl) := by
          intro hp
          have hx : (isGlob && !(excl.contains n)) = true := by simp [hp.1, hp.2]
          rw [hx] at hg
          cases hg
        simp [lookupA_filter_keep_mem usageAttrs das "name" (by decide), hv, h2]

/-! ### Claim theorems: renaming, rewriting, assembly, exclusion file -/

/-- C3 (amended): during renaming/copying, the top-level copied
definition's `name` is prefixed iff the `is_global` path test holds and
the original name is not in the exclusion set; but every *nested* named
node inside the copy is prefixed as well whenever its original name is
not in the exclusion set (nested names are **not** left untouched), and
the children of the copy are exactly the recursively renamed originals
in order. -/
theorem rename_prefixing_behavior :
    (∀ (pre : String) (excl : List String) (isGlob : Bool) (d : XNode),
      (renameCopyDef pre excl isGlob d).getAttr "name" =
        (d.getAttr "name").map
          (fun n => if isGlob && !(excl.contains n) then pre ++ n else n)) ∧
    (∀ (pre : String) (excl : List String) (t : String)
        (as : List (String × String)) (tx : Option String) (cs : List XNode),
      (recursiveRename pre excl (.elem t as tx cs)).getAttr "name" =
        (lookupA as "name").map
          (fun n => if excl.contains n then n else pre ++ n)) ∧
    (∀ (pre : String) (excl : List String) (isGlob : Bool) (d : XNode),
      (renameCopyDef pre excl isGlob d).children =
        d.children.map (recursiveRename pre excl)) := by
  refine ⟨getAttr_renameCopyDef_name, getAttr_recursiveRename_name, ?_⟩
  intro pre excl isGlob d
  cases d with
  | elem dt das dtx dcs =>
    show recursiveRenameL pre excl dcs = _
    simpa using recursiveRenameL_eq_map pre excl dcs

/-- C3 counterexample: copying the global element `E` that nests a named
local simpleType `Widget` (with prefix `p_` and empty exclusion set)
renames the nested definition to `p_Widget`; the claim requires it to
stay `Widget`. -/
theorem rename_nested_name_counterexample :
    ((renameCopyDef "p_" [] true widgetDef).children.map
        (fun c => c.getAttr "name")) = [some "p_Widget"] ∧
      some "p_Widget" ≠ some "Widget" := by
  constructor
  · decide
  · decide

/-- C4: evaluation of the consumer-document rewrite at the failing
input.  With prefix `s_` and `Foo` excluded, a `ref="s:Foo"` site is
rewritten to the bare `Foo`, but `type="s:Foo"` and `base="s:Foo"`
sites are rewritten to `s_Foo` — the exclusion set is consulted only in
the `ref` loop, contradicting the claim (and leaving dangling
references, since the closure file defines the excluded symbol under
its bare name). -/
theorem update_main_exclusion_divergence :
    ((updateMainDoc "s_" ["Foo"] fooConsumerDoc).children.map
        (fun c => c.getAttr "type")) = [some "s_Foo", none, none] ∧
    ((updateMainDoc "s_" ["Foo"] fooConsumerDoc).children.map
        (fun c => c.getAttr "ref")) = [none, some "Foo", none] ∧
    ((updateMainDoc "s_" ["Foo"] fooConsumerDoc).children.map
        (fun c => c.getAttr "base")) = [none, none, some "s_Foo"] := by
  refine ⟨by decide, by decide, by decide⟩

/-- C9: the assembled closure root is tagged `schema`, its sole
attribute is `elementFormDefault` copied from the target root (with
default `"qualified"`), it carries no `targetNamespace`, its namespace
map is the target root's map restricted to the `xs` key (so no other
prefix leaks in), and its children are exactly the renamed definitions
in the order given. -/
theorem assembler_output_shape (subNsmap subAttrs : List (String × String))
    (renamedDefs : List XNode) :
    (assembleClosure subNsmap subAttrs renamedDefs).2.tag = "schema" ∧
    (assembleClosure subNsmap subAttrs renamedDefs).2.getAttr "elementFormDefault" =
      some ((lookupA subAttrs "elementFormDefault").getD "qualified") ∧
    (assembleClosure subNsmap subAttrs renamedDefs).2.getAttr "targetNamespace" = none ∧
    (assembleClosure subNsmap subAttrs renamedDefs).1 =
      subNsmap.filter (fun p => p.1 == "xs") ∧
    (assembleClosure subNsmap subAttrs renamedDefs).2.children = renamedDefs := by
  refine ⟨rfl, ?_, ?_, rfl, rfl⟩
  · show lookupA [("elementFormDefault", _)] "elementFormDefault" = _
    rw [lookupA_cons]
    simp
  · show lookupA [("elementFormDefault", _)] "targetNamespace" = _
    rw [lookupA_cons]
    simp [lookupA]

/-- C10: a missing exclusion file yields the empty exclusion set with no
error, exactly as an empty/absent argument does, so the two cases are
indistinguishable. -/
theorem exclude_file_missing_is_empty (files : List (String × String)) (p : String)
    (h : files.find? (fun q => q.1 == p) = none) :
    readExcludeFile files p = [] ∧ readExcludeFile files "" = [] ∧
      readExcludeFile files p = readExcludeFile files "" := by
  have h1 : readExcludeFile files p = [] := by
    unfold readExcludeFile
    rw [h]
    cases hp : (p == "") with
    | true => simp [hp]
    | false => simp [hp]
  have h2 : readExcludeFile files "" = [] := by
    unfold readExcludeFile
    simp
  exact ⟨h1, h2, by rw [h1, h2]⟩

/-- Witness for the C10 theorem: a misspelled exclusion-file path
against a file system holding a real exclusion list. -/
theorem exclude_file_missing_is_empty_witness :
    readExcludeFile [("list.txt", "Foo\nBar\n")] "misspelled.txt" = [] ∧
      readExcludeFile [("list.txt", "Foo\nBar\n")] "" = [] ∧
      readExcludeFile [("list.txt", "Foo\nBar\n")] "misspelled.txt" =
        readExcludeFile [("list.txt", "Foo\nBar\n")] "" :=
  exclude_file_missing_is_empty [("list.txt", "Foo\nBar\n")] "misspelled.txt" (by decide)

theorem mem_extract_type (pre : String) (root : XNode) (m : String) (k : SymbolKind) :
    ((m, k) ∈ ((properDescs root).map (fun e =>
      match e.getAttr "type" with
      | some v =>
        if !(v == "") && strStarts v (dropLastChar pre ++ ":") then
          [(colonSeg1 v, SymbolKind.simpleType), (colonSeg1 v, SymbolKind.complexType)]
        else []
      | none => [])).flatten) ↔
    ((k = .simpleType ∨ k = .complexType) ∧ ∃ e ∈ properDescs root, ∃ v,
      e.getAttr "type" = some v ∧ (v == "") = false ∧
      strStarts v (dropLastChar pre ++ ":") = true ∧ m = colonSeg1 v) := by
  simp only [List.mem_flatten, List.mem_map]
  constructor
  · rintro ⟨l, ⟨e, he, rfl⟩, hm⟩
    split at hm
    case _ v hv =>
      split at hm
      case _ hc =>
        have h1 : (v == "") = false := by
          cases hx : (v == "") with
          | true => rw [hx] at hc; cases hc
          | false => rfl
        have h2 : strStarts v (dropLastChar pre ++ ":") = true :=
          (Bool.and_eq_true _ _ |>.mp hc).2
        simp only [List.mem_cons, List.not_mem_nil, or_false] at hm
        rcases hm with hm | hm
        · exact ⟨Or.inl (by rw [Prod.ext_iff] at hm; exact hm.2),
            e, he, v, hv, h1, h2, by rw [Prod.ext_iff] at hm; exact hm.1⟩
        · exact ⟨Or.inr (by rw [Prod.ext_iff] at hm; exact hm.2),
            e, he, v, hv, h1, h2, by rw [Prod.ext_iff] at hm; exact hm.1⟩
      case _ hc => cases hm
    case _ hv => cases hm
  · rintro ⟨hk, e, he, v, hv, h1, h2, rfl⟩
    refine ⟨_, ⟨e, he, rfl⟩, ?_⟩
    have hc : (!(v == "") && strStarts v (dropLastChar pre ++ ":")) = true := by
      rw [h1, h2]; rfl
    simp only [hv, hc, if_true]
    rcases hk with hk | hk <;> rw [hk] <;> simp

theorem mem_extract_ref (pre : String) (root : XNode) (m : String) (k : SymbolKind) :
    ((m, k) ∈ ((properDescs root).map (fun e =>
      match e.getAttr "ref" with
      | some v =>
        if !(v == "") && strStarts v (dropLastChar pre ++ ":") then
          [(colonSeg1 v, SymbolKind.element)]
        else []
      | none => [])).flatten) ↔
    (k = .element ∧ ∃ e ∈ properDescs root, ∃ v,
      e.getAttr "ref" = some v ∧ (v == "") = false ∧
      strStarts v (dropLastChar pre ++ ":") = true ∧ m = colonSeg1 v) := by
  simp only [List.mem_flatten, List.mem_map]
  constructor
  · rintro ⟨l, ⟨e, he, rfl⟩, hm⟩
    split at hm
    case _ v hv =>
      split at hm
      case _ hc =>
        have h1 : (v == "") = false := by
          cases hx : (v == "") with
          | true => rw [hx] at hc; cases hc
          | false => rfl
        have h2 : strStarts v (dropLastChar pre ++ ":") = true :=
          (Bool.and_eq_true _ _ |>.mp hc).2
        simp only [List.mem_singleton] at hm
        exact ⟨by rw [Prod.ext_iff] at hm; exact hm.2,
          e, he, v, hv, h1, h2, by rw [Prod.ext_iff] at hm; exact hm.1⟩
      case _ hc => cases hm
    case _ hv => cases hm
  · rintro ⟨hk, e, he, v, hv, h1, h2, rfl⟩
    refine ⟨_, ⟨e, he, rfl⟩, ?_⟩
    have hc : (!(v == "") && strStarts v (dropLastChar pre ++ ":")) = true := by
      rw [h1, h2]; rfl
    simp only [hv, hc, if_true]
    rw [hk]
    simp

theorem mem_extract_attrref (pre : String) (root : XNode) (m : String) (k : SymbolKind) :
    ((m, k) ∈ ((properDescs root).map (fun e =>
      if e.tag == "attribute" then
        match e.getAttr "ref" with
        | some v =>
          if !(v == "") && strStarts v (dropLastChar pre ++ ":") then
            [(colonSeg1 v, SymbolKind.attribute)]
          else []
        | none => []
      else [])).flatten) ↔
    (k = .attribute ∧ ∃ e ∈ properDescs root, e.tag = "attribute" ∧ ∃ v,
      e.getAttr "ref" = some v ∧ (v == "") = false ∧
      strStarts v (dropLastChar pre ++ ":") = true ∧ m = colonSeg1 v) := by
  simp only [List.mem_flatten, List.mem_map]
  constructor
  · rintro ⟨l, ⟨e, he, rfl⟩, hm⟩
    split at hm
    case _ ht =>
      split at hm
      case _ v hv =>
        split at hm
        case _ hc =>
          have h1 : (v == "") = false := by
            cases hx : (v == "") with
            | true => rw [hx] at hc; cases hc
            | false => rfl
          have h2 : strStarts v (dropLastChar pre ++ ":") = true :=
            (Bool.and_eq_true _ _ |>.mp hc).2
          simp only [List.mem_singleton] at hm
          exact ⟨by rw [Prod.ext_iff] at hm; exact hm.2,
            e, he, by simpa using ht, v, hv, h1, h2,
            by rw [Prod.ext_iff] at hm; exact hm.1⟩
        case _ hc => cases hm
      case _ hv => cases hm
    case _ ht => cases hm
  · rintro ⟨hk, e, he, ht, v, hv, h1, h2, rfl⟩
    refine ⟨_, ⟨e, he, rfl⟩, ?_⟩
    have hc : (!(v == "") && strStarts v (dropLastChar pre ++ ":")) = true := by
      rw [h1, h2]; rfl
    have ht' : (e.tag == "attribute") = true := by simpa using ht
    simp only [ht', if_true, hv, hc]
    rw [hk]
    simp

/-- C5 (amended): the Reference Extractor scans `type` and `ref`
attributes only — `base` attributes are never scanned.  A matching
`type` value yields both the simpleType and complexType candidate
kinds; a matching `ref` value yields the element kind regardless of the
referencing node's tag, and additionally the attribute kind when the
node is `attribute`-tagged.  Stated as an exact membership
characterisation of the extracted set. -/
theorem extractor_membership (pre : String) (root : XNode) (m : String) (k : SymbolKind) :
    (m, k) ∈ extractRefs pre root ↔
      (((k = .simpleType ∨ k = .complexType) ∧ ∃ e ∈ properDescs root, ∃ v,
          e.getAttr "type" = some v ∧ (v == "") = false ∧
          strStarts v (dropLastChar pre ++ ":") = true ∧ m = colonSeg1 v) ∨
        (k = .element ∧ ∃ e ∈ properDescs root, ∃ v,
          e.getAttr "ref" = some v ∧ (v == "") = false ∧
          strStarts v (dropLastChar pre ++ ":") = true ∧ m = colonSeg1 v) ∨
        (k = .attribute ∧ ∃ e ∈ properDescs root, e.tag = "attribute" ∧ ∃ v,
          e.getAttr "ref" = some v ∧ (v == "") = false ∧
          strStarts v (dropLastChar pre ++ ":") = true ∧ m = colonSeg1 v)) := by
  simp only [extractRefs]
  rw [List.mem_append, List.mem_append]
  rw [mem_extract_type, mem_extract_ref, mem_extract_attrref]
  exact or_assoc

/-- Witness for the extractor characterisation: on the document whose
only matching site is `ref="s:Att"` on an `attribute`-tagged node, the
pair `(Att, element)` is extracted (per the element disjunct, with no
tag condition). -/
theorem extractor_membership_witness :
    ("Att", SymbolKind.element) ∈ extractRefs "s_" attrRefDoc := by
  refine (extractor_membership "s_" attrRefDoc "Att" .element).mpr (Or.inr (Or.inl ?_))
  refine ⟨rfl, XNode.elem "attribute" [("ref", "s:Att")] none [], ?_, "s:Att", rfl, rfl, rfl, rfl⟩
  have h : properDescs attrRefDoc = [XNode.elem "attribute" [("ref", "s:Att")] none []] := rfl
  rw [h]
  exact List.mem_singleton_self _

/-- C5 counterexample: a document whose only target-qualified occurrence
is `base="s:Foo"` yields an *empty* initial reference set — the claim
requires `(Foo, simpleType)` and `(Foo, complexType)`; and on an
`attribute`-tagged `ref="s:Att"` site the extractor emits
`(Att, element)` in addition to `(Att, attribute)`, though the claim
assigns the element kind only to element-tagged nodes. -/
theorem extractor_counterexample :
    ((properDescs baseOnlyDoc).map (fun e => e.getAttr "base")) = [some "s:Foo"] ∧
    extractRefs "s_" baseOnlyDoc = [] ∧
    extractRefs "s_" attrRefDoc =
      [("Att", SymbolKind.element), ("Att", SymbolKind.attribute)] := by
  refine ⟨by decide, by decide, by decide⟩

/-! ### Flattener lemmas and claims -/

theorem self_mem_nodes (x : XNode) : x ∈ nodes x := by
  cases x with
  | elem t a tx cs => simp [nodes]

theorem mem_nodesL_of_mem {c : XNode} :
    ∀ {cs : List XNode}, c ∈ cs → c ∈ nodesL cs := by
  intro cs
  induction cs with
  | nil => intro h; cases h
  | cons hd tl ih =>
    intro h
    rcases List.mem_cons.mp h with h | h
    · subst h
      exact List.mem_append_left _ (self_mem_nodes c)
    · exact List.mem_append_right _ (ih h)

/-- Invariant preservation through `runAllE`. -/
theorem runAllE_invariant {α σ : Type} (P : σ → Prop)
    (f : α → σ → Except FlatErr σ)
    (hf : ∀ a s s', f a s = .ok s' → P s → P s') :
    ∀ (l : List α) (s s' : σ), runAllE f l s = .ok s' → P s → P s' := by
  intro l
  induction l with
  | nil =>
    intro s s' h hs
    simp only [runAllE] at h
    cases h
    exact hs
  | cons a rest ihl =>
    intro s s' h hs
    simp only [runAllE] at h
    split at h
    · cases h
    · rename_i s1 heq
      exact ihl s1 s' h (hf a s s1 heq hs)

/-- A successful flattening leaves no processable include among the
result's top-level children. -/
theorem resolveIncludes_no_top_includes :
    ∀ (fuel : Nat) (fs : FileSys) (bp : String) (x y : XNode),
      resolveIncludes fs fuel bp x = .ok y →
      y.children.filter isInclLoc = [] := by
  intro fuel
  induction fuel with
  | zero =>
    intro fs bp x y h
    simp [resolveIncludes] at h
  | succ fuel ih =>
    intro fs bp x y h
    cases x with
    | elem t a tx cs =>
      simp only [resolveIncludes] at h
      split at h
      · cases h
      · rename_i parts hrun
        cases h
        show (cs.filter (fun c => !(isInclLoc c)) ++ parts).filter isInclLoc = []
        rw [List.filter_append]
        have h1 : (cs.filter (fun c => !(isInclLoc c))).filter isInclLoc = [] := by
          rw [List.filter_eq_nil_iff]
          intro e he
          have := (List.mem_filter.mp he).2
          simp at this
          simp [this]
        have h2 : parts.filter isInclLoc = [] := by
          rw [List.filter_eq_nil_iff]
          have hP : ∀ e ∈ parts, isInclLoc e = false := by
            refine runAllE_invariant (fun l => ∀ e ∈ l, isInclLoc e = false) _
              ?_ _ [] parts hrun (by intro e he; cases he)
            intro inc acc s' heq hacc
            split at heq
            · cases heq
              exact hacc
            · rename_i v
              split at heq
              · cases heq
                exact hacc
              · split at heq
                · cases heq
                · rename_i d hd
                  split at heq
                  · cases heq
                  · rename_i r hr
                    cases heq
                    intro e he
                    rcases List.mem_append.mp he with he | he
                    · exact hacc e he
                    · have h3 := ih fs _ d r hr
                      rw [List.filter_eq_nil_iff] at h3
                      have := h3 e he
                      simpa using this
          intro e he
          simp [hP e he]
        rw [h1, h2]
        rfl

/-- C6 (amended): the Recursive Include Flattener *appends* each
included file's resolved top-level children at the end of the including
element's child list and removes the include marker (it does not splice
them at the include's position); each `schemaLocation` is resolved
relative to the directory of the file containing the include, and an
included file's own includes are resolved before its content is
appended; a successful run leaves no include node carrying a
`schemaLocation` among the result's top-level children.  Shown by the
general no-remaining-includes property plus the placement and
nested-directory runs. -/
theorem flattener_append_behavior :
    (∀ (fuel : Nat) (fs : FileSys) (bp : String) (x y : XNode),
      resolveIncludes fs fuel bp x = .ok y →
        y.children.filter isInclLoc = []) ∧
    ((resolveIncludes fsPlacement 2 "" rootWithInclude).toOption.map
        (fun r => r.children.map (fun c => c.getAttr "name"))) =
      some [some "X", some "Y"] ∧
    ((resolveIncludes fsNested 3 "" rootNested).toOption.map
        (fun r => r.children.map (fun c => c.getAttr "name"))) =
      some [some "BE", some "CE"] := by
  refine ⟨resolveIncludes_no_top_includes, by decide, by decide⟩

/-- Witness for the flattener theorem: the placement run succeeds and
its result indeed has no remaining processable include. -/
theorem flattener_append_behavior_witness :
    (XNode.elem "schema" [] none
        [XNode.elem "element" [("name", "X")] none [],
         XNode.elem "element" [("name", "Y")] none []]).children.filter isInclLoc = [] :=
  flattener_append_behavior.1 2 fsPlacement "" rootWithInclude _ rfl

/-- C6 counterexample: on a root holding an include followed by an
element `X`, where the included file defines `Y`, the flattener
produces child order `[X, Y]` — the included content is appended at the
end, not substituted at the include's position, which would give
`[Y, X]`; and an include node without a `schemaLocation` survives
flattening, so the result is not always include-free. -/
theorem flattener_placement_counterexample :
    ((resolveIncludes fsPlacement 2 "" rootWithInclude).toOption.map
        (fun r => r.children.map (fun c => c.getAttr "name"))) =
      some [some "X", some "Y"] ∧
    some [some "X", some "Y"] ≠ some [some "Y", some "X"] ∧
    ((resolveIncludes [] 1 "" rootBareInclude).toOption.map
        (fun r => r.children.map XNode.tag)) = some ["include"] := by
  refine ⟨by decide, by decide, by decide⟩

/-- C7: flattening is the identity on documents containing no include
nodes: the result is structurally identical to the input (the model
abstracts from whitespace; the Python parser drops blank text and the
writer pretty-prints). -/
theorem flatten_identity_on_include_free (fs : FileSys) (fuel : Nat) (bp : String)
    (x : XNode) (h : includeFree x = true) :
    resolveIncludes fs (fuel + 1) bp x = .ok x := by
  cases x with
  | elem t a tx cs =>
    have hct : ∀ c ∈ cs, (c.tag == "include") = false := by
      intro c hc
      have hmem : c ∈ nodes (XNode.elem t a tx cs) := by
        rw [show nodes (XNode.elem t a tx cs) = XNode.elem t a tx cs :: nodesL cs from rfl]
        exact List.mem_cons_of_mem _ (mem_nodesL_of_mem hc)
      have h2 := (List.all_eq_true.mp h) c hmem
      simpa using h2
    have h1 : cs.filter (fun c => c.tag == "include") = [] := by
      rw [List.filter_eq_nil_iff]
      intro c hc
      simp [hct c hc]
    have h2 : cs.filter (fun c => !(isInclLoc c)) = cs := by
      rw [List.filter_eq_self]
      intro c hc
      simp [isInclLoc, hct c hc]
    simp only [resolveIncludes, h1, h2]
    simp [runAllE]

/-- Witness for the identity theorem: an include-free document passes
through the flattener unchanged. -/
theorem flatten_identity_witness :
    resolveIncludes [] 1 "" plainDoc = .ok plainDoc :=
  flatten_identity_on_include_free [] 0 "" plainDoc (by decide)

/-- C8: the two-tier error policy.  (1) A missing include target file
is fatal: when the first processable include's resolved path is not on
the file system, flattening the element returns the
`FileNotFoundError`.  (2) A symbol reference whose definition cannot be
located anywhere in the target document is recoverable: resolution
returns normally, records the diagnostic, and leaves the processed set
extended and every definition bucket untouched. -/
theorem two_tier_error_policy :
    (∀ (fs : FileSys) (fuel : Nat) (bp t : String) (a : List (String × String))
        (tx : Option String) (cs : List XNode) (v : String),
      cs.filter (fun c => c.tag == "include") =
          [XNode.elem "include" [("schemaLocation", v)] none []] →
      (v == "") = false →
      lookupFS fs (joinPath bp v) = none →
      resolveIncludes fs (fuel + 1) bp (.elem t a tx cs) =
        .error (.notFound (joinPath bp v))) ∧
    (∀ (doc : XNode) (fuel : Nat) (r : String) (k : SymbolKind) (s : RState),
      (pyStrip r, k) ∉ s.processed →
      findDef doc (pyStrip r) k = none →
      resolveRef doc (fuel + 1) r k s =
        some { s with processed := (pyStrip r, k) :: s.processed,
                      warnings := s.warnings ++ [(pyStrip r, k)] }) := by
  constructor
  · intro fs fuel bp t a tx cs v hfil hv hfs
    simp only [resolveIncludes, hfil]
    simp only [runAllE]
    have hget : (XNode.elem "include" [("schemaLocation", v)] none []).getAttr
        "schemaLocation" = some v := rfl
    simp only [hget, hv, hfs]
    simp
  · intro doc fuel r k s hmem hfind
    simp only [resolveRef]
    rw [if_neg hmem]
    simp only [hfind]

/-- Witness for the two-tier policy: a missing `missing.xsd` aborts the
flattening with the file-not-found error, while an unresolvable symbol
`Nope` leaves resolution successful with a recorded diagnostic. -/
theorem two_tier_error_policy_witness :
    resolveIncludes [] 1 "" (XNode.elem "schema" [] none
        [XNode.elem "include" [("schemaLocation", "missing.xsd")] none []]) =
      .error (.notFound "missing.xsd") ∧
    resolveRef cycleDoc 1 "Nope" .group initState =
      some ⟨[("Nope", SymbolKind.group)], [], [], [], [], [],
        [("Nope", SymbolKind.group)]⟩ := by
  constructor
  · exact two_tier_error_policy.1 [] 0 "" "schema" [] none
      [XNode.elem "include" [("schemaLocation", "missing.xsd")] none []] "missing.xsd"
      rfl (by decide) rfl
  · exact two_tier_error_policy.2 cycleDoc 0 "Nope" .group initState (by decide) rfl

/-! ### Resolver metatheory: state order and primitive steps -/

theorem stateLE_refl (s : RState) : StateLE s s := by
  refine ⟨?_, ?_, fun k => ?_⟩ <;> intro a h <;> exact h

theorem stateLE_trans {a b c : RState} (h1 : StateLE a b) (h2 : StateLE b c) :
    StateLE a c := by
  refine ⟨?_, ?_, fun k => ?_⟩
  · intro q h
    exact h2.1 (h1.1 h)
  · intro q h
    exact h2.2.1 (h1.2.1 h)
  · intro q h
    exact h2.2.2 k (h1.2.2 k h)

theorem bucket_setBucket (s : RState) (k : SymbolKind) (l : List (String × XNode))
    (k' : SymbolKind) :
    bucket (setBucket s k l) k' = if k' = k then l else bucket s k' := by
  cases k <;> cases k' <;> simp [bucket, setBucket]

theorem processed_setBucket (s : RState) (k : SymbolKind) (l : List (String × XNode)) :
    (setBucket s k l).processed = s.processed := by
  cases k <;> rfl

theorem warnings_setBucket (s : RState) (k : SymbolKind) (l : List (String × XNode)) :
    (setBucket s k l).warnings = s.warnings := by
  cases k <;> rfl

theorem map_fst_upsertRep (l : List (String × XNode)) (n : String) (v : XNode) :
    (upsertRep l n v).map Prod.fst = l.map Prod.fst := by
  induction l with
  | nil => rfl
  | cons hd tl ih =>
    cases hb : (hd.1 == n) with
    | true =>
      have h1 : hd.1 = n := by simpa using hb
      simp [upsertRep, hb, ih, h1]
    | false => simp [upsertRep, hb, ih]

theorem mem_keys_upsert (l : List (String × XNode)) (n : String) (v : XNode)
    (a : String) (h : a ∈ l.map Prod.fst) : a ∈ (upsert l n v).map Prod.fst := by
  unfold upsert
  split
  · rwa [map_fst_upsertRep]
  · rw [List.map_append]
    exact List.mem_append_left _ h

theorem key_mem_upsert (l : List (String × XNode)) (n : String) (v : XNode) :
    n ∈ (upsert l n v).map Prod.fst := by
  unfold upsert
  split
  · rename_i hany
    rw [map_fst_upsertRep]
    rcases List.any_eq_true.mp hany with ⟨p, hp, hpn⟩
    have : p.1 = n := by simpa using hpn
    rw [← this]
    exact List.mem_map_of_mem Prod.fst hp
  · rw [List.map_append]
    exact List.mem_append_right _ (by simp)

theorem stateLE_cons_processed (s : RState) (p : String × SymbolKind) :
    StateLE s { s with processed := p :: s.processed } := by
  refine ⟨?_, ?_, fun k => ?_⟩
  · intro q h
    exact List.mem_cons_of_mem _ h
  · intro q h
    exact h
  · intro q h
    exact h

theorem stateLE_append_warnings (s : RState) (w : List (String × SymbolKind)) :
    StateLE s { s with warnings := s.warnings ++ w } := by
  refine ⟨?_, ?_, fun k => ?_⟩
  · intro q h
    exact h
  · intro q h
    exact List.mem_append_left _ h
  · intro q h
    exact h

theorem stateLE_setBucket_upsert (s : RState) (k : SymbolKind) (n : String)
    (v : XNode) : StateLE s (setBucket s k (upsert (bucket s k) n v)) := by
  refine ⟨?_, ?_, ?_⟩
  · rw [processed_setBucket]
    intro q h
    exact h
  · rw [warnings_setBucket]
    intro q h
    exact h
  · intro k' q h
    show q ∈ keysOf _ k'
    unfold keysOf
    rw [bucket_setBucket]
    by_cases hk : k' = k
    · rw [if_pos hk]
      subst hk
      exact mem_keys_upsert _ _ _ _ h
    · rw [if_neg hk]
      exact h

/-- Relational invariant through `runAll`. -/
theorem runAll_rel {α σ : Type} (R : σ → σ → Prop)
    (hrefl : ∀ s, R s s) (htrans : ∀ {a b c : σ}, R a b → R b c → R a c)
    (f : α → σ → Option σ) (hf : ∀ a s s', f a s = some s' → R s s') :
    ∀ (l : List α) (s s' : σ), runAll f l s = some s' → R s s' := by
  intro l
  induction l with
  | nil =>
    intro s s' h
    simp only [runAll] at h
    cases h
    exact hrefl _
  | cons q rest ih =>
    intro s s' h
    simp only [runAll] at h
    split at h
    · cases h
    · rename_i s1 heq
      exact htrans (hf q s s1 heq) (ih s1 s' h)

/-- A successful `resolve_reference` call only grows the state, and its
own (stripped) reference pair is processed afterwards. -/
theorem resolveRef_mono (doc : XNode) : ∀ (fuel : Nat) (r : String) (k : SymbolKind)
    (s s' : RState), resolveRef doc fuel r k s = some s' →
    StateLE s s' ∧ (pyStrip r, k) ∈ s'.processed := by
  intro fuel
  induction fuel with
  | zero =>
    intro r k s s' h
    simp [resolveRef] at h
  | succ fuel ih =>
    intro r k s s' h
    simp only [resolveRef] at h
    split at h
    · rename_i hin
      cases h
      exact ⟨stateLE_refl _, hin⟩
    · rename_i hnin
      split at h
      · rename_i hfind
        cases h
        constructor
        · exact stateLE_trans (stateLE_cons_processed s _) (stateLE_append_warnings _ _)
        · exact List.mem_cons_self _ _
      · rename_i d hfind
        split at h
        · cases h
        · rename_i s3 hrun
          have hstep : ∀ (q : String × SymbolKind) (st st' : RState),
              resolveRef doc fuel q.1 q.2 st = some st' → StateLE st st' :=
            fun q st st' hq => (ih q.1 q.2 st st' hq).1
          have h23 : StateLE _ s3 :=
            runAll_rel StateLE stateLE_refl stateLE_trans _ hstep _ _ _ hrun
          have h12 : StateLE s (setBucket
              { s with processed := (pyStrip r, k) :: s.processed } k
              (upsert (bucket { s with processed := (pyStrip r, k) :: s.processed } k)
                (pyStrip r) d)) :=
            stateLE_trans (stateLE_cons_processed s _) (stateLE_setBucket_upsert _ _ _ _)
          have hmem2 : (pyStrip r, k) ∈ (setBucket
              { s with processed := (pyStrip r, k) :: s.processed } k
              (upsert (bucket { s with processed := (pyStrip r, k) :: s.processed } k)
                (pyStrip r) d)).processed := by
            rw [processed_setBucket]
            exact List.mem_cons_self _ _
          have h3' : StateLE s3 s' ∧ s'.processed = s3.processed := by
            split at h
            · cases h
              exact ⟨stateLE_refl _, rfl⟩
            · rename_i t hinl
              split at h
              · cases h
                exact ⟨stateLE_refl _, rfl⟩
              · rename_i nm hnm
                cases h
                exact ⟨stateLE_setBucket_upsert _ _ _ _, processed_setBucket _ _ _⟩
          constructor
          · exact stateLE_trans h12 (stateLE_trans h23 h3'.1)
          · rw [h3'.2]
            exact h23.1 (hmem2)

/-- Resolving a reference already in the processed set is a no-op. -/
theorem resolveRef_noop (doc : XNode) (fuel : Nat) (r : String) (k : SymbolKind)
    (s : RState) (h : (pyStrip r, k) ∈ s.processed) :
    resolveRef doc (fuel + 1) r k s = some s := by
  simp only [resolveRef]
  rw [if_pos h]

/-- Every reference pair passed through a dependency loop is processed
in the final state. -/
theorem runAll_processed (doc : XNode) (fuel : Nat) :
    ∀ (l : List (String × SymbolKind)) (s s' : RState),
      runAll (fun q st => resolveRef doc fuel q.1 q.2 st) l s = some s' →
      ∀ q ∈ l, (pyStrip q.1, q.2) ∈ s'.processed := by
  intro l
  induction l with
  | nil =>
    intro s s' h q hq
    cases hq
  | cons a rest ih =>
    intro s s' h q hq
    simp only [runAll] at h
    split at h
    · cases h
    · rename_i s1 heq
      rcases List.mem_cons.mp hq with hq | hq
      · subst hq
        have h1 := (resolveRef_mono doc fuel q.1 q.2 s s1 heq).2
        have hmono := runAll_rel StateLE stateLE_refl stateLE_trans _
          (fun q st st' hqq => (resolveRef_mono doc fuel q.1 q.2 st st' hqq).1)
          rest s1 s' h
        exact hmono.1 h1
      · exact ih s1 s' h q hq

/-- `Handled` persists as the state grows. -/
theorem handled_mono (doc : XNode) {s t : RState} (hle : StateLE s t)
    {p : String × SymbolKind} (h : Handled doc s p) : Handled doc t p := by
  cases hfd : findDef doc p.1 p.2 with
  | some d =>
    simp only [Handled, hfd] at h ⊢
    exact ⟨hle.2.2 _ h.1, fun q hq => hle.1 (h.2 q hq)⟩
  | none =>
    simp only [Handled, hfd] at h ⊢
    exact hle.2.1 h

/-- Saturation: every pair processed by a successful call was either
already processed or is fully handled in the final state. -/
theorem resolveRef_handles (doc : XNode) : ∀ (fuel : Nat) (r : String) (k : SymbolKind)
    (s s' : RState), resolveRef doc fuel r k s = some s' →
    ∀ p ∈ s'.processed, p ∈ s.processed ∨ Handled doc s' p := by
  intro fuel
  induction fuel with
  | zero =>
    intro r k s s' h
    simp [resolveRef] at h
  | succ fuel ih =>
    intro r k s s' h
    simp only [resolveRef] at h
    split at h
    · rename_i hin
      cases h
      intro p hp
      exact Or.inl hp
    · rename_i hnin
      split at h
      · rename_i hfind
        cases h
        intro p hp
        rcases List.mem_cons.mp hp with hp | hp
        · subst hp
          right
          simp only [Handled, hfind]
          exact List.mem_append_right _ (by simp)
        · exact Or.inl hp
      · rename_i d hfind
        split at h
        · cases h
        · rename_i s3 hrun
          have hfold : ∀ (l : List (String × SymbolKind)) (s2 s3 : RState),
              runAll (fun q st => resolveRef doc fuel q.1 q.2 st) l s2 = some s3 →
              ∀ p ∈ s3.processed, p ∈ s2.processed ∨ Handled doc s3 p := by
            intro l
            induction l with
            | nil =>
              intro s2 s3 hr p hp
              simp only [runAll] at hr
              cases hr
              exact Or.inl hp
            | cons a rest ihl =>
              intro s2 s3 hr p hp
              simp only [runAll] at hr
              split at hr
              · cases hr
              · rename_i sm heq
                rcases ihl sm s3 hr p hp with hmem | hh
                · rcases ih a.1 a.2 s2 sm heq p hmem with hmem2 | hh2
                  · exact Or.inl hmem2
                  · right
                    have hmono := runAll_rel StateLE stateLE_refl stateLE_trans _
                      (fun q st st' hqq => (resolveRef_mono doc fuel q.1 q.2 st st' hqq).1)
                      rest sm s3 hr
                    exact handled_mono doc hmono hh2
                · exact Or.inr hh
          have h3' : StateLE s3 s' ∧ s'.processed = s3.processed := by
            split at h
            · cases h
              exact ⟨stateLE_refl _, rfl⟩
            · rename_i t hinl
              split at h
              · cases h
                exact ⟨stateLE_refl _, rfl⟩
              · rename_i nm hnm
                cases h
                exact ⟨stateLE_setBucket_upsert _ _ _ _, processed_setBucket _ _ _⟩
          intro p hp
          rw [h3'.2] at hp
          rcases hfold _ _ _ hrun p hp with hp2 | hh
          · rw [processed_setBucket] at hp2
            rcases List.mem_cons.mp hp2 with hp2 | hp2
            · subst hp2
              right
              simp only [Handled, hfind]
              constructor
              · have hk2 : pyStrip r ∈ keysOf (setBucket
                    { s with processed := (pyStrip r, k) :: s.processed } k
                    (upsert (bucket { s with processed := (pyStrip r, k) :: s.processed } k)
                      (pyStrip r) d)) k := by
                  unfold keysOf
                  rw [bucket_setBucket, if_pos rfl]
                  exact key_mem_upsert _ _ _
                have hm23 := runAll_rel StateLE stateLE_refl stateLE_trans _
                  (fun q st st' hqq => (resolveRef_mono doc fuel q.1 q.2 st st' hqq).1)
                  _ _ _ hrun
                exact h3'.1.2.2 k (hm23.2.2 k hk2)
              · intro q hq
                rw [h3'.2]
                exact runAll_processed doc fuel _ _ _ hrun q hq
            · exact Or.inl hp2
          · exact Or.inr (handled_mono doc h3'.1 hh)

/-! ### Document-tree lemmas and the reference universe -/

mutual
theorem nodes_trans : ∀ (x d : XNode), d ∈ nodes x → nodes d ⊆ nodes x
  | .elem t a tx cs, d, h => by
    simp only [nodes] at h ⊢
    rcases List.mem_cons.mp h with he | hm
    · subst he
      simp only [nodes]
      intro y hy
      exact hy
    · intro y hy
      exact List.mem_cons_of_mem _ (nodesL_trans cs d hm hy)
theorem nodesL_trans : ∀ (cs : List XNode) (d : XNode), d ∈ nodesL cs → nodes d ⊆ nodesL cs
  | [], d, h => by
    simp [nodesL] at h
  | c :: cs, d, h => by
    simp only [nodesL] at h ⊢
    rcases List.mem_append.mp h with hm | hm
    · intro y hy
      exact List.mem_append_left _ (nodes_trans c d hm hy)
    · intro y hy
      exact List.mem_append_right _ (nodesL_trans cs d hm hy)
end

theorem mem_nodes_of_mem_properDescs {x d : XNode} (h : d ∈ properDescs x) :
    d ∈ nodes x := by
  cases x with
  | elem t a tx cs =>
    simp only [properDescs, XNode.children] at h
    simp only [nodes]
    exact List.mem_cons_of_mem _ h

theorem findDef_mem (doc : XNode) (n : String) (k : SymbolKind) (d : XNode)
    (h : findDef doc n k = some d) : d ∈ nodes doc := by
  unfold findDef at h
  split at h
  · split at h
    · rename_i d' hfc
      cases h
      unfold findChild at hfc
      have hm := List.mem_of_find?_eq_some hfc
      cases doc with
      | elem t a tx cs =>
        simp only [XNode.children] at hm
        simp only [nodes]
        exact List.mem_cons_of_mem _ (mem_nodesL_of_mem hm)
    · unfold findDesc at h
      exact mem_nodes_of_mem_properDescs (List.mem_of_find?_eq_some h)
  · unfold findDesc at h
    exact mem_nodes_of_mem_properDescs (List.mem_of_find?_eq_some h)

theorem kindTargets_fst (a : String) (e : XNode) (v : String)
    (q : String × SymbolKind) (h : q ∈ kindTargets a e v) : q.1 = v := by
  unfold kindTargets at h
  split at h
  · rcases List.mem_cons.mp h with h | h
    · rw [h]
    · simp only [List.mem_singleton] at h
      rw [h]
  · split at h
    · split at h
      · simp only [List.mem_singleton] at h
        rw [h]
      · split at h
        · simp only [List.mem_singleton] at h
          rw [h]
        · cases h
    · split at h
      · simp only [List.mem_singleton] at h
        rw [h]
      · cases h

theorem depPairs_mem (d : XNode) (q : String × SymbolKind) (h : q ∈ depPairs d) :
    ∃ e ∈ nodes d, ∃ a v, e.getAttr a = some v ∧ q.1 = v := by
  unfold depPairs at h
  rw [List.mem_flatten] at h
  rcases h with ⟨l, hl, hq⟩
  rw [List.mem_map] at hl
  rcases hl with ⟨a, _, rfl⟩
  rw [List.mem_flatten] at hq
  rcases hq with ⟨l3, hl3, hq⟩
  rw [List.mem_map] at hl3
  rcases hl3 with ⟨e, he, rfl⟩
  have hed : e ∈ nodes d := by
    rcases List.mem_cons.mp he with he | he
    · subst he
      exact self_mem_nodes _
    · unfold descsWithAttr at he
      exact mem_nodes_of_mem_properDescs (List.mem_filter.mp he).1
  split at hq
  · rename_i v hv
    split at hq
    · exact ⟨e, hed, a, v, hv, kindTargets_fst a e v q hq⟩
    · cases hq
  · cases hq

theorem mem_allKinds (k : SymbolKind) : k ∈ allKinds := by
  cases k <;> decide

theorem getAttr_val_mem (e : XNode) (a v : String) (h : e.getAttr a = some v) :
    pyStrip v ∈ e.attrs.map (fun p => pyStrip p.2) := by
  unfold XNode.getAttr lookupA at h
  cases hf : e.attrs.find? (fun p => p.1 == a) with
  | none =>
    rw [hf] at h
    cases h
  | some pr =>
    rw [hf] at h
    have h2 : pr.2 = v := by
      simpa using h
    have hm := List.mem_of_find?_eq_some hf
    rw [← h2]
    exact List.mem_map_of_mem _ hm

theorem depPair_in_universe (doc : XNode) (refs : List (String × SymbolKind))
    (d : XNode) (hd : d ∈ nodes doc) (q : String × SymbolKind)
    (hq : q ∈ depPairs d) : (pyStrip q.1, q.2) ∈ refUniverse doc refs := by
  rcases depPairs_mem d q hq with ⟨e, he, a, v, hav, hqv⟩
  have he2 : e ∈ nodes doc := nodes_trans doc d hd he
  apply Finset.mem_union_right
  rw [Finset.mem_product]
  constructor
  · show pyStrip q.1 ∈ attrValsStripped doc
    unfold attrValsStripped
    rw [List.mem_toFinset, hqv]
    simp only [List.mem_flatten, List.mem_map]
    exact ⟨_, ⟨e, he2, rfl⟩, getAttr_val_mem e a v hav⟩
  · exact mem_allKinds _

theorem initRef_in_universe (doc : XNode) (refs : List (String × SymbolKind))
    (q : String × SymbolKind) (h : q ∈ refs) :
    (pyStrip q.1, q.2) ∈ refUniverse doc refs := by
  apply Finset.mem_union_left
  rw [List.mem_toFinset]
  exact List.mem_map_of_mem _ h

theorem measure_le_of_subset (U : Finset (String × SymbolKind))
    {l1 l2 : List (String × SymbolKind)} (h : l1 ⊆ l2) :
    (U \ l2.toFinset).card ≤ (U \ l1.toFinset).card := by
  apply Finset.card_le_card
  apply Finset.sdiff_subset_sdiff (Finset.Subset.refl U)
  intro q hq
  rw [List.mem_toFinset] at hq ⊢
  exact h hq

/-- Fuel adequacy: with more fuel than the number of candidate pairs not
yet processed, `resolve_reference` cannot run out — the processed set
strictly grows inside the finite universe before every recursion. -/
theorem resolveRef_adequate (doc : XNode) (refs : List (String × SymbolKind)) :
    ∀ (fuel : Nat) (r : String) (k : SymbolKind) (s : RState),
      (pyStrip r, k) ∈ refUniverse doc refs →
      ((refUniverse doc refs) \ s.processed.toFinset).card < fuel →
      (resolveRef doc fuel r k s).isSome := by
  intro fuel
  induction fuel with
  | zero =>
    intro r k s hU hc
    exact absurd hc (Nat.not_lt_zero _)
  | succ fuel ih =>
    intro r k s hU hc
    simp only [resolveRef]
    by_cases hin : (pyStrip r, k) ∈ s.processed
    · rw [if_pos hin]
      rfl
    · rw [if_neg hin]
      have hmem : (pyStrip r, k) ∈ refUniverse doc refs \ s.processed.toFinset := by
        rw [Finset.mem_sdiff]
        refine ⟨hU, ?_⟩
        rw [List.mem_toFinset]
        exact hin
      have hc1 : ((refUniverse doc refs) \
          ((pyStrip r, k) :: s.processed).toFinset).card < fuel := by
        have he : (refUniverse doc refs) \ ((pyStrip r, k) :: s.processed).toFinset =
            ((refUniverse doc refs) \ s.processed.toFinset).erase (pyStrip r, k) := by
          ext q
          simp only [Finset.mem_sdiff, Finset.mem_erase, List.toFinset_cons,
            Finset.mem_insert, List.mem_toFinset]
          tauto
        rw [he, Finset.card_erase_of_mem hmem]
        have hpos : 0 < ((refUniverse doc refs) \ s.processed.toFinset).card :=
          Finset.card_pos.mpr ⟨_, hmem⟩
        omega
      cases hfd : findDef doc (pyStrip r) k with
      | none => rfl
      | some d =>
        have hdmem : d ∈ nodes doc := findDef_mem doc _ _ d hfd
        have hfold : ∀ (l : List (String × SymbolKind)) (s2 : RState),
            (∀ q ∈ l, (pyStrip q.1, q.2) ∈ refUniverse doc refs) →
            ((refUniverse doc refs) \ s2.processed.toFinset).card < fuel →
            (runAll (fun q st => resolveRef doc fuel q.1 q.2 st) l s2).isSome := by
          intro l
          induction l with
          | nil =>
            intro s2 _ _
            rfl
          | cons a rest ihl =>
            intro s2 hql hc2
            simp only [runAll]
            have hsome := ih a.1 a.2 s2 (hql a (List.mem_cons_self _ _)) hc2
            cases heq : resolveRef doc fuel a.1 a.2 s2 with
            | none =>
              rw [heq] at hsome
              cases hsome
            | some sm =>
              have hmono := (resolveRef_mono doc fuel a.1 a.2 s2 sm heq).1
              have hc3 : ((refUniverse doc refs) \ sm.processed.toFinset).card < fuel :=
                lt_of_le_of_lt (measure_le_of_subset _ hmono.1) hc2
              have := ihl sm (fun q hq => hql q (List.mem_cons_of_mem _ hq)) hc3
              simpa [heq] using this
        have h2 := hfold (depPairs d)
          (setBucket { s with processed := (pyStrip r, k) :: s.processed } k
            (upsert (bucket { s with processed := (pyStrip r, k) :: s.processed } k)
              (pyStrip r) d))
          (fun q hq => depPair_in_universe doc refs d hdmem q hq)
          (by rw [processed_setBucket]; exact hc1)
        cases hrr : runAll (fun q st => resolveRef doc fuel q.1 q.2 st) (depPairs d)
            (setBucket { s with processed := (pyStrip r, k) :: s.processed } k
              (upsert (bucket { s with processed := (pyStrip r, k) :: s.processed } k)
                (pyStrip r) d)) with
        | none =>
          rw [hrr] at h2
          cases h2
        | some s3 =>
          simp only [hrr]
          split
          · rfl
          · split
            · rfl
            · rfl

/-- Saturation lifted through a reference loop. -/
theorem runAll_handles (doc : XNode) (fuel : Nat) :
    ∀ (l : List (String × SymbolKind)) (s s' : RState),
      runAll (fun q st => resolveRef doc fuel q.1 q.2 st) l s = some s' →
      ∀ p ∈ s'.processed, p ∈ s.processed ∨ Handled doc s' p := by
  intro l
  induction l with
  | nil =>
    intro s s' h p hp
    simp only [runAll] at h
    cases h
    exact Or.inl hp
  | cons a rest ihl =>
    intro s s' h p hp
    simp only [runAll] at h
    split at h
    · cases h
    · rename_i sm heq
      rcases ihl sm s' h p hp with hmem | hh
      · rcases resolveRef_handles doc fuel a.1 a.2 s sm heq p hmem with hmem2 | hh2
        · exact Or.inl hmem2
        · right
          have hmono := runAll_rel StateLE stateLE_refl stateLE_trans _
            (fun q st st' hqq => (resolveRef_mono doc fuel q.1 q.2 st st' hqq).1)
            rest sm s' h
          exact handled_mono doc hmono hh2
      · exact Or.inr hh

/-- With adequate fuel the whole dependency resolution completes. -/
theorem resolveDependencies_isSome (doc : XNode)
    (refs : List (String × SymbolKind)) :
    (resolveDependencies doc refs (adequateFuel doc refs)).isSome := by
  unfold resolveDependencies
  have hlt : ∀ s : RState,
      ((refUniverse doc refs) \ s.processed.toFinset).card < adequateFuel doc refs := by
    intro s
    unfold adequateFuel
    have := Finset.card_le_card (Finset.sdiff_subset
      (s := refUniverse doc refs) (t := s.processed.toFinset))
    omega
  have hgen : ∀ (l : List (String × SymbolKind)) (s : RState),
      (∀ q ∈ l, q ∈ refs) →
      (runAll (fun q st => resolveRef doc (adequateFuel doc refs) q.1 q.2 st) l s).isSome := by
    intro l
    induction l with
    | nil =>
      intro s _
      rfl
    | cons a rest ihl =>
      intro s hql
      simp only [runAll]
      have hsome := resolveRef_adequate doc refs (adequateFuel doc refs) a.1 a.2 s
        (initRef_in_universe doc refs a (hql a (List.mem_cons_self _ _))) (hlt s)
      cases heq : resolveRef doc (adequateFuel doc refs) a.1 a.2 s with
      | none =>
        rw [heq] at hsome
        cases hsome
      | some sm =>
        have := ihl sm (fun q hq => hql q (List.mem_cons_of_mem _ hq))
        simpa [heq] using this
  exact hgen refs initState (fun q hq => hq)

/-- Every reachable pair ends up in the processed set of a completed
resolution. -/
theorem reaches_processed (doc : XNode) (refs : List (String × SymbolKind))
    (s' : RState)
    (h : resolveDependencies doc refs (adequateFuel doc refs) = some s') :
    ∀ p, Reaches doc refs p → p ∈ s'.processed := by
  intro p hp
  induction hp with
  | init r k hr =>
    exact runAll_processed doc _ refs initState s' h (r, k) hr
  | step n k d r k' hreach hfd hdep ihp =>
    have hh := runAll_handles doc _ refs initState s' h (n, k) ihp
    rcases hh with hmem | hh
    · cases hmem
    · simp only [Handled, hfd] at hh
      exact hh.2 (r, k') hdep

/-- C2: every symbol transitively reachable from the initial reference
set via local `type`/`base`/`ref`/`group` edges on resolved definitions
and their descendants appears in the returned definition buckets under
its kind when a definition with that name and kind exists anywhere in
the document; when none exists, the diagnostic is recorded and
resolution still completes. -/
theorem closure_completeness (doc : XNode) (refs : List (String × SymbolKind))
    (p : String × SymbolKind) (hr : Reaches doc refs p) :
    ∃ s, resolveDependencies doc refs (adequateFuel doc refs) = some s ∧
      ((findDef doc p.1 p.2).isSome → p.1 ∈ keysOf s p.2) ∧
      (findDef doc p.1 p.2 = none → p ∈ s.warnings) := by
  have hsome := resolveDependencies_isSome doc refs
  cases hs : resolveDependencies doc refs (adequateFuel doc refs) with
  | none =>
    rw [hs] at hsome
    cases hsome
  | some s =>
    refine ⟨s, rfl, ?_, ?_⟩
    · intro hfd
      have hp := reaches_processed doc refs s hs p hr
      have hh := runAll_handles doc _ refs initState s hs p hp
      rcases hh with hmem | hh
      · cases hmem
      · cases hfd2 : findDef doc p.1 p.2 with
        | none =>
          rw [hfd2] at hfd
          cases hfd
        | some d =>
          simp only [Handled, hfd2] at hh
          exact hh.1
    · intro hfd
      have hp := reaches_processed doc refs s hs p hr
      have hh := runAll_handles doc _ refs initState s hs p hp
      rcases hh with hmem | hh
      · cases hmem
      · simp only [Handled, hfd] at hh
        exact hh

/-- Witness for closure completeness: in the cyclic document, `B` is
reachable from the initial reference `(A, complexType)` through the
`type="B"` edge inside `A`, and indeed lands in the complexType
bucket. -/
theorem closure_completeness_witness :
    ∃ s, resolveDependencies cycleDoc [("A", SymbolKind.complexType)]
        (adequateFuel cycleDoc [("A", SymbolKind.complexType)]) = some s ∧
      ((findDef cycleDoc "B" SymbolKind.complexType).isSome →
        "B" ∈ keysOf s .complexType) ∧
      (findDef cycleDoc "B" SymbolKind.complexType = none →
        ("B", SymbolKind.complexType) ∈ s.warnings) :=
  closure_completeness cycleDoc [("A", SymbolKind.complexType)]
    ("B", SymbolKind.complexType)
    (Reaches.step "A" SymbolKind.complexType _ "B" SymbolKind.complexType
      (Reaches.init "A" SymbolKind.complexType (by decide)) rfl (by decide))

/-- C1: dependency resolution terminates on every target document and
initial reference set (with fuel bounded by the finite candidate
universe, standing for the Python call stack); a reference already in
the processed set is a no-op, so each SymbolRef is resolved at most
once; the processed set is extended before any recursion and grows
monotonically, never shrinking, across one run; and on the cyclic
document where complexType `A` references `B` and `B` references back
to `A`, resolution succeeds with `A` and `B` each appearing exactly
once in the closure. -/
theorem resolver_termination_and_once :
    (∀ (doc : XNode) (refs : List (String × SymbolKind)),
      (resolveDependencies doc refs (adequateFuel doc refs)).isSome) ∧
    (∀ (doc : XNode) (fuel : Nat) (r : String) (k : SymbolKind) (s : RState),
      (pyStrip r, k) ∈ s.processed → resolveRef doc (fuel + 1) r k s = some s) ∧
    (∀ (doc : XNode) (fuel : Nat) (r : String) (k : SymbolKind) (s s' : RState),
      resolveRef doc fuel r k s = some s' →
        s.processed ⊆ s'.processed ∧ (pyStrip r, k) ∈ s'.processed) ∧
    ((resolveDependencies cycleDoc [("A", SymbolKind.complexType)]
        (adequateFuel cycleDoc [("A", SymbolKind.complexType)])).map
      (fun s => (((bucket s .complexType).map Prod.fst).count "A",
                 ((bucket s .complexType).map Prod.fst).count "B")) = some (1, 1)) := by
  refine ⟨resolveDependencies_isSome, resolveRef_noop, ?_, by decide⟩
  intro doc fuel r k s s' h
  exact ⟨(resolveRef_mono doc fuel r k s s' h).1.1, (resolveRef_mono doc fuel r k s s' h).2⟩

/-- Witness for the termination theorem: resolving `A` again after it
has been processed is a no-op, instantiated on a concrete state. -/
theorem resolver_termination_and_once_witness :
    resolveRef cycleDoc 5 "A" SymbolKind.complexType
      ⟨[("A", SymbolKind.complexType)], [], [], [], [], [], []⟩ =
      some ⟨[("A", SymbolKind.complexType)], [], [], [], [], [], []⟩ :=
  resolver_termination_and_once.2.1 cycleDoc 4 "A" SymbolKind.complexType
    ⟨[("A", SymbolKind.complexType)], [], [], [], [], [], []⟩ (by decide)
